import Mathlib

/-!
# Verification of the Mandelbrot plotter

Shallow embedding of `src/lib.rs` and `src/bin/main.rs` of the
`mandelbrot` crate.  The Rust code computes with `f64`; real arithmetic
is modelled here by exact arithmetic over `ℚ` (every operation the
program performs — `+`, `-`, `*`, `/`, comparison — is taken at its
exact mathematical value).  Machine integers (`u32`, `usize`, `u8`)
are modelled by `ℕ`; the fallible `assert!` in `render` is modelled by
an `Option` result.  Buffers (`&mut [u8]`) are modelled by `List ℕ`
with explicit state passing through the write loops.
-/

namespace Mandelbrot

/-- `num::Complex<f64>`, with `f64` modelled by `ℚ`. -/
structure Complex where
  re : ℚ
  im : ℚ
deriving DecidableEq, Repr

/-- Complex addition, as in the `num` crate. -/
instance : Add Complex :=
  ⟨fun a b => ⟨a.re + b.re, a.im + b.im⟩⟩

/-- Complex multiplication, as in the `num` crate:
`(a+bi)(c+di) = (ac−bd) + (ad+bc)i`. -/
instance : Mul Complex :=
  ⟨fun a b => ⟨a.re * b.re - a.im * b.im, a.re * b.im + a.im * b.re⟩⟩

/-- `Complex::norm_sqr`: `re² + im²`. -/
def Complex.norm_sqr (z : Complex) : ℚ :=
  z.re * z.re + z.im * z.im

theorem Complex.add_def (a b : Complex) :
    a + b = ⟨a.re + b.re, a.im + b.im⟩ := rfl

theorem Complex.mul_def (a b : Complex) :
    a * b = ⟨a.re * b.re - a.im * b.im, a.re * b.im + a.im * b.re⟩ := rfl

/-- Loop body of `escape_time` (`src/lib.rs` lines 18–29): `z` is the
current value, `i` the current loop counter, `fuel` the number of
iterations remaining out of `limit`. -/
def escapeGo (c : Complex) : Complex → ℕ → ℕ → Option ℕ
  | _, _, 0 => none
  | z, i, fuel + 1 =>
    let z1 := z * z + c
    if 4 < z1.norm_sqr then some i else escapeGo c z1 (i + 1) fuel

/-- `escape_time` (`src/lib.rs`): starting from `z = 0`, iterate
`z ← z² + c` at most `limit` times; return `some i` at the first `i`
with `|z|² > 4` after the update, else `none`. -/
def escape_time (c : Complex) (limit : ℕ) : Option ℕ :=
  escapeGo c ⟨0, 0⟩ 0 limit

/-- The orbit of `0` under `z ↦ z² + c`; `zOrbit c (i+1)` is the value
of `z` after the update of loop iteration `i` of `escape_time`. -/
def zOrbit (c : Complex) : ℕ → Complex
  | 0 => ⟨0, 0⟩
  | n + 1 => zOrbit c n * zOrbit c n + c

/-- `pixel_to_point` (`src/lib.rs` lines 66–78): linear interpolation
of a pixel `(col, row)` into the rectangle `[upper_left, lower_right]`
of the plane.  `bounds = (width, height)` in pixels, `pixel = (col, row)`. -/
def pixel_to_point (bounds : ℕ × ℕ) (pixel : ℕ × ℕ)
    (upper_left lower_right : Complex) : Complex :=
  let width : ℚ := lower_right.re - upper_left.re
  let height : ℚ := upper_left.im - lower_right.im
  ⟨upper_left.re + (pixel.1 : ℚ) * width / (bounds.1 : ℚ),
   upper_left.im - (pixel.2 : ℚ) * height / (bounds.2 : ℚ)⟩

/-- The byte written by `render` for the point `point`:
`0` for a set member, `255 − count` when `escape_time` returns
`Some(count)` (`src/lib.rs` lines 99–102). -/
def pixelByte (point : Complex) : ℕ :=
  match escape_time point 255 with
  | none => 0
  | some count => 255 - count

/-- Inner (column) loop of `render` for one `row`: writes
`pixels[row*w + col]` for each `col ∈ [0, w)`. -/
def renderRow (bounds : ℕ × ℕ) (upper_left lower_right : Complex)
    (row : ℕ) (pixels : List ℕ) : List ℕ :=
  (List.range bounds.1).foldl
    (fun px col =>
      px.set (row * bounds.1 + col)
        (pixelByte (pixel_to_point bounds (col, row) upper_left lower_right)))
    pixels

/-- `render` (`src/lib.rs` lines 86–104).  The `assert!` on the buffer
length is modelled by returning `none` (the process aborts before any
byte is written); otherwise the nested row/column loops fill the buffer. -/
def render (pixels : List ℕ) (bounds : ℕ × ℕ)
    (upper_left lower_right : Complex) : Option (List ℕ) :=
  if pixels.length = bounds.1 * bounds.2 then
    some ((List.range bounds.2).foldl
      (fun px row => renderRow bounds upper_left lower_right row px) pixels)
  else
    none

/-- The image `render` computes, written directly as rows of bytes:
row `row` holds the byte of column `col` at index `col`. -/
def renderPure (bounds : ℕ × ℕ) (upper_left lower_right : Complex) : List ℕ :=
  (List.range bounds.2).flatMap fun row =>
    (List.range bounds.1).map fun col =>
      pixelByte (pixel_to_point bounds (col, row) upper_left lower_right)

/-- Worker count of `main` (`src/bin/main.rs` line 30): `let threads = 8`. -/
def threads : ℕ := 8

/-- `rows_per_band` (`src/bin/main.rs` line 31): `bounds.1 / threads + 1`,
with the worker count as a parameter. -/
def rows_per_band (h n : ℕ) : ℕ :=
  h / n + 1

/-- `slice::chunks_mut(k)` on a buffer: successive chunks of `k`
elements, the last one possibly shorter.  (Rust panics when `k = 0`;
the `k = 0` branch here is never reached under the preconditions used.) -/
def chunksList (k : ℕ) (l : List ℕ) : List (List ℕ) :=
  if h : l = [] ∨ k = 0 then []
  else l.take k :: chunksList k (l.drop k)
termination_by l.length
decreasing_by
  simp only [not_or] at h
  have hl : l.length ≠ 0 := fun hc => h.1 (List.eq_nil_of_length_eq_zero hc)
  simp only [List.length_drop]
  omega

/-- The band loop of `main` (`src/bin/main.rs` lines 33–49), with the
worker count `n` as a parameter: split the buffer into row-bands of
`rows_per_band * width` bytes, derive each band's viewport corners with
`pixel_to_point`, render every band, and reassemble the buffer (the
bands are disjoint consecutive sub-slices of the one pixel buffer). -/
def renderBands (bounds : ℕ × ℕ) (n : ℕ)
    (upper_left lower_right : Complex) (pixels : List ℕ) : Option (List ℕ) :=
  let rpb := rows_per_band bounds.2 n
  let bands := chunksList (rpb * bounds.1) pixels
  (bands.enum.mapM fun ib =>
    let top := rpb * ib.1
    let height := ib.2.length / bounds.1
    let band_bounds := (bounds.1, height)
    let band_upper_left := pixel_to_point bounds (0, top) upper_left lower_right
    let band_lower_right :=
      pixel_to_point bounds (bounds.1, top + height) upper_left lower_right
    render ib.2 band_bounds band_upper_left band_lower_right).map List.flatten

/-- The pixel pipeline of `main` (`src/bin/main.rs` lines 28–51): start
from a zero buffer, run the parallel band phase with `threads = 8`
workers, then call `render` once more over the entire buffer. -/
def mainPixels (bounds : ℕ × ℕ)
    (upper_left lower_right : Complex) : Option (List ℕ) :=
  let pixels := List.replicate (bounds.1 * bounds.2) 0
  (renderBands bounds threads upper_left lower_right pixels).bind
    fun banded => render banded bounds upper_left lower_right

/-- The byte range `(offset, length)` of each successive sub-slice in a
split of one buffer: `chunks_mut` hands out consecutive sub-slices, so
band `i` starts where band `i−1` ended. -/
def sliceRanges (off : ℕ) : List (List ℕ) → List (ℕ × ℕ)
  | [] => []
  | c :: cs => (off, c.length) :: sliceRanges (off + c.length) cs

/-- The byte ranges of the band decomposition of a `w*h` buffer at
worker count `n`. -/
def bandRanges (w h n : ℕ) (pixels : List ℕ) : List (ℕ × ℕ) :=
  sliceRanges 0 (chunksList (rows_per_band h n * w) pixels)

/-- `str::find(char)`: byte index of the first occurrence of `sep`
(strings are modelled as `List Char`; for the one-byte separators the
program uses, char index and byte index coincide). -/
def findChar (sep : Char) : List Char → Option ℕ
  | [] => none
  | c :: cs => if c = sep then some 0 else (findChar sep cs).map (· + 1)

/-- `parse_pair` (`src/lib.rs` lines 38–47), generic over the element
parser `fromStr` (Rust's `T::from_str`): find the first occurrence of
`separator`, parse the substrings before and after it. -/
def parse_pair {T : Type} (fromStr : List Char → Option T)
    (s : List Char) (separator : Char) : Option (T × T) :=
  match findChar separator s with
  | some index =>
    match fromStr (s.take index), fromStr (s.drop (index + 1)) with
    | some l, some r => some (l, r)
    | _, _ => none
  | none => none

/-- Decimal digit value of a character, if any. -/
def digit? (c : Char) : Option ℕ :=
  if '0' ≤ c ∧ c ≤ '9' then some (c.toNat - '0'.toNat) else none

/-- Accumulating decimal parse of a digit string. -/
def parseNatAux : ℕ → List Char → Option ℕ
  | acc, [] => some acc
  | acc, c :: cs =>
    match digit? c with
    | some d => parseNatAux (acc * 10 + d) cs
    | none => none

/-- A non-empty all-digit string parsed as a natural number. -/
def parseNatDigits (s : List Char) : Option ℕ :=
  if s = [] then none else parseNatAux 0 s

/-- `i32::from_str`: optional `+`/`-` sign followed by one or more
decimal digits, value within the `i32` range. -/
def i32_from_str (s : List Char) : Option ℤ :=
  match s with
  | [] => none
  | c :: rest =>
    if c = '+' then
      (parseNatDigits rest).bind fun m =>
        if m ≤ 2 ^ 31 - 1 then some (m : ℤ) else none
    else if c = '-' then
      (parseNatDigits rest).bind fun m =>
        if m ≤ 2 ^ 31 then some (-(m : ℤ)) else none
    else
      (parseNatDigits (c :: rest)).bind fun m =>
        if m ≤ 2 ^ 31 - 1 then some (m : ℤ) else none

/-! ## The escape-time loop -/

theorem zOrbit_zero (c : Complex) : zOrbit c 0 = ⟨0, 0⟩ := rfl

theorem zOrbit_succ (c : Complex) (n : ℕ) :
    zOrbit c (n + 1) = zOrbit c n * zOrbit c n + c := rfl

/-- One-step unfolding of the loop body at a point of the orbit. -/
theorem escapeGo_orbit_succ (c : Complex) (i fuel : ℕ) :
    escapeGo c (zOrbit c i) i (fuel + 1) =
      if 4 < (zOrbit c (i + 1)).norm_sqr then some i
      else escapeGo c (zOrbit c (i + 1)) (i + 1) fuel := rfl

/-- Characterization of the loop from an arbitrary starting iteration:
`some j` is returned exactly for the first `j` in the window
`[i, i+fuel)` whose updated `z` leaves the radius-2 circle. -/
theorem escapeGo_some_iff (c : Complex) (fuel : ℕ) :
    ∀ (i j : ℕ),
      (escapeGo c (zOrbit c i) i fuel = some j ↔
        (i ≤ j ∧ j < i + fuel ∧ 4 < (zOrbit c (j + 1)).norm_sqr ∧
          ∀ m, i ≤ m → m < j → (zOrbit c (m + 1)).norm_sqr ≤ 4)) := by
  induction fuel with
  | zero =>
    intro i j
    simp only [escapeGo]
    constructor
    · intro h; cases h
    · intro h; omega
  | succ fuel ih =>
    intro i j
    rw [escapeGo_orbit_succ]
    by_cases h4 : 4 < (zOrbit c (i + 1)).norm_sqr
    · rw [if_pos h4]
      constructor
      · intro h
        cases h
        exact ⟨le_refl _, by omega, h4, fun m h1 h2 => by omega⟩
      · rintro ⟨hij, _, hesc, hfirst⟩
        rcases Nat.eq_or_lt_of_le hij with heq | hlt
        · rw [heq]
        · exact absurd h4 (not_lt_of_le (hfirst i (le_refl _) hlt))
    · rw [if_neg h4]
      rw [ih (i + 1) j]
      constructor
      · rintro ⟨hij, hlt, hesc, hfirst⟩
        refine ⟨by omega, by omega, hesc, fun m h1 h2 => ?_⟩
        rcases Nat.eq_or_lt_of_le h1 with heq | hm
        · rw [← heq]; exact le_of_not_lt h4
        · exact hfirst m hm h2
      · rintro ⟨hij, hlt, hesc, hfirst⟩
        have hne : i ≠ j := by
          intro heq; rw [← heq] at hesc; exact h4 hesc
        exact ⟨by omega, by omega, hesc, fun m h1 h2 => hfirst m (by omega) h2⟩

/-- `none` is returned exactly when no iteration in the window escapes. -/
theorem escapeGo_none_iff (c : Complex) (fuel : ℕ) :
    ∀ (i : ℕ),
      (escapeGo c (zOrbit c i) i fuel = none ↔
        ∀ m, i ≤ m → m < i + fuel → (zOrbit c (m + 1)).norm_sqr ≤ 4) := by
  induction fuel with
  | zero =>
    intro i
    constructor
    · intro _ m h1 h2; omega
    · intro _; rfl
  | succ fuel ih =>
    intro i
    rw [escapeGo_orbit_succ]
    by_cases h4 : 4 < (zOrbit c (i + 1)).norm_sqr
    · rw [if_pos h4]
      constructor
      · intro h; cases h
      · intro h
        exact absurd h4 (not_lt_of_le (h i (le_refl _) (by omega)))
    · rw [if_neg h4, ih (i + 1)]
      constructor
      · intro h m h1 h2
        rcases Nat.eq_or_lt_of_le h1 with heq | hm
        · rw [← heq]; exact le_of_not_lt h4
        · exact h m hm (by omega)
      · intro h m h1 h2
        exact h m (by omega) (by omega)

/-- C3: `escape_time c L` iterates `z ← z² + c` from `z = 0` and returns
`some i` with `i < L` exactly at the first iteration whose updated `z`
satisfies `|z|² > 4`, and `none` exactly when no iteration below `L` does
(the point is then classified as a set member). -/
theorem escape_time_spec (c : Complex) (L : ℕ) (hL : 0 < L) :
    (∀ i, escape_time c L = some i ↔
      (i < L ∧ 4 < (zOrbit c (i + 1)).norm_sqr ∧
        ∀ j, j < i → (zOrbit c (j + 1)).norm_sqr ≤ 4)) ∧
    (escape_time c L = none ↔ ∀ i, i < L → (zOrbit c (i + 1)).norm_sqr ≤ 4) := by
  constructor
  · intro i
    have h := escapeGo_some_iff c L 0 i
    rw [zOrbit_zero] at h
    rw [escape_time, h]
    constructor
    · rintro ⟨_, h2, h3, h4⟩
      exact ⟨by omega, h3, fun j hj => h4 j (by omega) hj⟩
    · rintro ⟨h1, h2, h3⟩
      exact ⟨by omega, by omega, h2, fun m _ hm => h3 m hm⟩
  · have h := escapeGo_none_iff c L 0
    rw [zOrbit_zero] at h
    rw [escape_time, h]
    constructor
    · intro h1 i hi; exact h1 i (by omega) (by omega)
    · intro h1 m _ hm; exact h1 m (by omega)

/-- The first update from `z = 0` yields `z = c`. -/
theorem zOrbit_one (c : Complex) : zOrbit c 1 = c := by
  show (⟨0, 0⟩ : Complex) * ⟨0, 0⟩ + c = c
  rw [Complex.mul_def, Complex.add_def]
  cases c with
  | mk re im => simp

/-- C8: a point outside the circle of radius 2 (`|c|² > 4`) escapes in
the very first iteration: `escape_time c L = some 0` for every `L ≥ 1`. -/
theorem escape_time_outside_radius_two (c : Complex) (L : ℕ)
    (hc : 4 < c.norm_sqr) (hL : 0 < L) :
    escape_time c L = some 0 := by
  obtain ⟨n, rfl⟩ : ∃ n, L = n + 1 := ⟨L - 1, by omega⟩
  have hz : (⟨0, 0⟩ : Complex) * ⟨0, 0⟩ + c = c := zOrbit_one c
  show escapeGo c ⟨0, 0⟩ 0 (n + 1) = some 0
  simp only [escapeGo]
  rw [hz, if_pos hc]

/-- Witness for C3 at `c = 3 + 0i`, `L = 1`. -/
theorem escape_time_spec_witness :
    (∀ i, escape_time ⟨3, 0⟩ 1 = some i ↔
      (i < 1 ∧ 4 < (zOrbit ⟨3, 0⟩ (i + 1)).norm_sqr ∧
        ∀ j, j < i → (zOrbit ⟨3, 0⟩ (j + 1)).norm_sqr ≤ 4)) ∧
    (escape_time ⟨3, 0⟩ 1 = none ↔
      ∀ i, i < 1 → (zOrbit ⟨3, 0⟩ (i + 1)).norm_sqr ≤ 4) :=
  escape_time_spec ⟨3, 0⟩ 1 (by norm_num)

/-- Witness for C8 at `c = 3 + 0i` (`|c|² = 9 > 4`), `L = 255`. -/
theorem escape_time_outside_radius_two_witness :
    escape_time ⟨3, 0⟩ 255 = some 0 :=
  escape_time_outside_radius_two ⟨3, 0⟩ 255 (by norm_num [Complex.norm_sqr]) (by norm_num)

/-! ## The coordinate mapper -/

/-- C9: the reference case `pixel_to_point((100,100), (25,75), -1+1i, 1-1i)
= -0.5 - 0.5i` holds exactly, and in general the mapper is the linear
interpolation `re = ul.re + col·(lr.re − ul.re)/W`,
`im = ul.im − row·(ul.im − lr.im)/H`. -/
theorem pixel_to_point_spec :
    pixel_to_point (100, 100) (25, 75) ⟨-1, 1⟩ ⟨1, -1⟩ = ⟨-1/2, -1/2⟩ ∧
    ∀ (W H col row : ℕ) (ul lr : Complex),
      pixel_to_point (W, H) (col, row) ul lr =
        ⟨ul.re + (col : ℚ) * (lr.re - ul.re) / (W : ℚ),
         ul.im - (row : ℚ) * (ul.im - lr.im) / (H : ℚ)⟩ := by
  constructor
  · simp only [pixel_to_point, Complex.mk.injEq]
    norm_num
  · intro W H col row ul lr
    rfl

/-! ## The band-height computation of `main` -/

/-- C6 counterexample: at `H = 8`, `N = 8` the code computes
`rows_per_band = 8/8 + 1 = 2`, while `ceil(8/8) = (8+8−1)/8 = 1`, and
`r = 1` already satisfies `r·N ≥ H`, so the code's value is not the
smallest such `r`. -/
theorem rows_per_band_not_ceil :
    rows_per_band 8 8 = 2 ∧ (8 + 8 - 1) / 8 = 1 ∧ 1 * 8 ≥ 8 ∧
      (1 : ℕ) < rows_per_band 8 8 := by
  decide

/-- C6 amended: the decomposition computes `rows_per_band = H/N + 1`
(floor division plus one), which always satisfies
`rows_per_band · N > H`, so every row is covered whether or not `N`
divides `H` — but it is not always the smallest integer `r` with
`r·N ≥ H` (when `N` divides `H` it exceeds `ceil(H/N)` by one). -/
theorem rows_per_band_covers (h n : ℕ) (hh : 0 < h) (hn : 0 < n) :
    rows_per_band h n = h / n + 1 ∧ h < rows_per_band h n * n := by
  refine ⟨rfl, ?_⟩
  have := Nat.lt_succ_self (h / n)
  exact (Nat.div_lt_iff_lt_mul hn).mp this

/-- Witness for the amended C6 at `H = 5`, `N = 2`. -/
theorem rows_per_band_covers_witness :
    rows_per_band 5 2 = 5 / 2 + 1 ∧ 5 < rows_per_band 5 2 * 2 :=
  rows_per_band_covers 5 2 (by decide) (by decide)

/-! ## Pair parsing -/

/-- `findChar` finds exactly the first occurrence: `some i` means `s`
splits as `left ++ sep :: right` with `|left| = i` and `sep ∉ left`. -/
theorem findChar_some_iff (sep : Char) :
    ∀ (s : List Char) (i : ℕ),
      findChar sep s = some i ↔
        ∃ left right, s = left ++ sep :: right ∧ left.length = i ∧ sep ∉ left := by
  intro s
  induction s with
  | nil =>
    intro i
    constructor
    · intro h; cases h
    · rintro ⟨left, right, h, -, -⟩
      have := congrArg List.length h
      simp at this
      omega
  | cons c cs ih =>
    intro i
    simp only [findChar]
    by_cases hc : c = sep
    · rw [if_pos hc]
      constructor
      · intro h
        cases h
        exact ⟨[], cs, by simp [hc], rfl, by simp⟩
      · rintro ⟨left, right, heq, hlen, hmem⟩
        cases left with
        | nil =>
          simp only [List.length_nil] at hlen
          rw [← hlen]
        | cons x xs =>
          injection heq with h1 _
          rw [← h1, hc] at hmem
          exact absurd (List.mem_cons_self _ _) hmem
    · rw [if_neg hc]
      constructor
      · intro h
        cases hf : findChar sep cs with
        | none => rw [hf] at h; cases h
        | some j =>
          rw [hf] at h
          simp only [Option.map_some'] at h
          have hji : j + 1 = i := by injection h
          obtain ⟨left, right, heq, hlen, hmem⟩ := (ih j).mp hf
          refine ⟨c :: left, right, by rw [heq]; rfl,
            by simp [hlen, ← hji], ?_⟩
          intro hm
          rcases List.mem_cons.mp hm with h1 | h1
          · exact hc h1.symm
          · exact hmem h1
      · rintro ⟨left, right, heq, hlen, hmem⟩
        cases left with
        | nil =>
          simp only [List.nil_append] at heq
          injection heq with h1 _
          exact absurd h1 hc
        | cons x xs =>
          injection heq with h1 h2
          have hx : sep ∉ xs := fun hm => hmem (List.mem_cons_of_mem _ hm)
          rw [(ih xs.length).mpr ⟨xs, right, h2, rfl, hx⟩]
          simp only [Option.map_some', Option.some.injEq]
          simp only [List.length_cons] at hlen
          exact hlen

/-- `findChar` fails exactly when the separator does not occur. -/
theorem findChar_none_iff (sep : Char) (s : List Char) :
    findChar sep s = none ↔ sep ∉ s := by
  induction s with
  | nil => simp [findChar]
  | cons c cs ih =>
    simp only [findChar]
    by_cases hc : c = sep
    · rw [if_pos hc]
      simp [hc]
    · rw [if_neg hc]
      constructor
      · intro h hm
        rcases List.mem_cons.mp hm with h1 | h1
        · exact hc h1.symm
        · cases hf : findChar sep cs with
          | none => exact (ih.mp hf) h1
          | some j => rw [hf] at h; cases h
      · intro h
        have : sep ∉ cs := fun hm => h (List.mem_cons_of_mem _ hm)
        rw [ih.mpr this]
        rfl

/-- Structural form of `parse_pair`: success means the first occurrence
of the separator splits the string into two parseable substrings. -/
theorem parse_pair_eq_some_iff {T : Type} (fromStr : List Char → Option T)
    (s : List Char) (sep : Char) (a b : T) :
    parse_pair fromStr s sep = some (a, b) ↔
      ∃ i, findChar sep s = some i ∧ fromStr (s.take i) = some a ∧
        fromStr (s.drop (i + 1)) = some b := by
  unfold parse_pair
  cases hf : findChar sep s with
  | none => simp
  | some i =>
    cases hl : fromStr (s.take i) with
    | none => simp [hl]
    | some l =>
      cases hr : fromStr (s.drop (i + 1)) with
      | none => simp [hl, hr]
      | some r => simp [hl, hr, and_assoc, eq_comm]

/-- Every string accepted by `parseNatAux` consists of decimal digits. -/
theorem parseNatAux_digits :
    ∀ (t : List Char) (acc n : ℕ), parseNatAux acc t = some n →
      ∀ c ∈ t, '0' ≤ c ∧ c ≤ '9' := by
  intro t
  induction t with
  | nil => intro acc n _ c hc; cases hc
  | cons x xs ih =>
    intro acc n h c hc
    simp only [parseNatAux] at h
    cases hd : digit? x with
    | none => rw [hd] at h; cases h
    | some d =>
      rw [hd] at h
      rcases List.mem_cons.mp hc with rfl | hmem
      · unfold digit? at hd
        by_cases hb : '0' ≤ c ∧ c ≤ '9'
        · exact hb
        · rw [if_neg hb] at hd; cases hd
      · exact ih _ _ h c hmem

/-- Every string accepted by `parseNatDigits` consists of decimal digits. -/
theorem parseNatDigits_digits (s : List Char) (n : ℕ)
    (h : parseNatDigits s = some n) : ∀ c ∈ s, '0' ≤ c ∧ c ≤ '9' := by
  unfold parseNatDigits at h
  by_cases hs : s = []
  · rw [if_pos hs] at h; cases h
  · rw [if_neg hs] at h
    exact parseNatAux_digits s 0 n h

/-- A character that is neither a digit nor a sign never occurs in a
string accepted by `i32::from_str`. -/
theorem i32_from_str_no_sep (sep : Char) (hd : ¬('0' ≤ sep ∧ sep ≤ '9'))
    (hp : sep ≠ '+') (hm : sep ≠ '-') :
    ∀ (t : List Char) (x : ℤ), i32_from_str t = some x → sep ∉ t := by
  intro t x h hmem
  cases t with
  | nil => cases h
  | cons c rest =>
    simp only [i32_from_str] at h
    by_cases hc1 : c = '+'
    · rw [if_pos hc1] at h
      cases hpn : parseNatDigits rest with
      | none => rw [hpn] at h; cases h
      | some m =>
        rcases List.mem_cons.mp hmem with rfl | hmem'
        · exact hp hc1
        · exact hd (parseNatDigits_digits rest m hpn sep hmem')
    · rw [if_neg hc1] at h
      by_cases hc2 : c = '-'
      · rw [if_pos hc2] at h
        cases hpn : parseNatDigits rest with
        | none => rw [hpn] at h; cases h
        | some m =>
          rcases List.mem_cons.mp hmem with rfl | hmem'
          · exact hm hc2
          · exact hd (parseNatDigits_digits rest m hpn sep hmem')
      · rw [if_neg hc2] at h
        cases hpn : parseNatDigits (c :: rest) with
        | none => rw [hpn] at h; cases h
        | some m =>
          exact hd (parseNatDigits_digits _ m hpn sep hmem)

/-- C5 counterexample: with the `i32` parser and separator `'1'`, the
input `"2113"` has two occurrences of the separator, yet `parse_pair`
returns `some (2, 13)` (it splits at the first occurrence only), so
"any shape other than exactly one separator yields `None`" fails. -/
theorem parse_pair_first_split_counterexample :
    parse_pair i32_from_str ['2', '1', '1', '3'] '1' = some (2, 13) ∧
    List.count '1' ['2', '1', '1', '3'] = 2 := by
  constructor
  · rfl
  · rfl

/-- C5 amended: for a parser that never accepts a string containing the
separator (true of the numeric parsers and separators the program uses),
`parse_pair` succeeds exactly on strings `left ++ sep :: right` whose
two sides parse fully — and such strings contain the separator exactly
once; every other shape yields `none`.  (Without that proviso the code
splits at the *first* occurrence rather than requiring exactly one.) -/
theorem parse_pair_amended {T : Type} (fromStr : List Char → Option T)
    (sep : Char) (hsep : ∀ t x, fromStr t = some x → sep ∉ t)
    (s : List Char) (a b : T) :
    parse_pair fromStr s sep = some (a, b) ↔
      ∃ left right, s = left ++ sep :: right ∧
        fromStr left = some a ∧ fromStr right = some b ∧
        List.count sep s = 1 := by
  rw [parse_pair_eq_some_iff]
  constructor
  · rintro ⟨i, hf, hl, hr⟩
    obtain ⟨left, right, heq, hlen, hmem⟩ := (findChar_some_iff sep s i).mp hf
    have htake : s.take i = left := by
      rw [heq, ← hlen, List.take_left]
    have hdrop : s.drop (i + 1) = right := by
      rw [heq, ← hlen]
      rw [show left.length + 1 = left.length + 1 from rfl]
      rw [← List.drop_drop]
      rw [List.drop_left]
      rfl
    rw [htake] at hl
    rw [hdrop] at hr
    refine ⟨left, right, heq, hl, hr, ?_⟩
    have hright : sep ∉ right := hsep right b hr
    rw [heq, List.count_append, List.count_cons]
    rw [List.count_eq_zero.mpr hmem, List.count_eq_zero.mpr hright]
    simp
  · rintro ⟨left, right, heq, hl, hr, -⟩
    have hmem : sep ∉ left := hsep left a hl
    refine ⟨left.length, (findChar_some_iff sep s left.length).mpr
      ⟨left, right, heq, rfl, hmem⟩, ?_, ?_⟩
    · rw [heq, List.take_left]
      exact hl
    · rw [heq, ← List.drop_drop, List.drop_left]
      exact hr

/-- Witness for the amended C5: `"10,20"` with separator `','` parses
to `(10, 20)`. -/
theorem parse_pair_amended_witness :
    parse_pair i32_from_str ['1', '0', ',', '2', '0'] ',' = some (10, 20) ↔
      ∃ left right, ['1', '0', ',', '2', '0'] = left ++ ',' :: right ∧
        i32_from_str left = some 10 ∧ i32_from_str right = some 20 ∧
        List.count ',' ['1', '0', ',', '2', '0'] = 1 :=
  parse_pair_amended i32_from_str ','
    (i32_from_str_no_sep ',' (by decide) (by decide) (by decide))
    ['1', '0', ',', '2', '0'] 10 20

/-! ## The render loops -/

/-- Writing through `set` never changes the buffer length. -/
theorem foldl_set_length (l : List ℕ) (g f : ℕ → ℕ) :
    ∀ (px : List ℕ),
      (l.foldl (fun px c => px.set (g c) (f c)) px).length = px.length := by
  induction l with
  | nil => intro px; rfl
  | cons c cs ih =>
    intro px
    rw [List.foldl_cons, ih, List.length_set]

/-- Indices no write targets are untouched by the fold. -/
theorem foldl_set_untouched (g f : ℕ → ℕ) (j : ℕ) :
    ∀ (l : List ℕ) (px : List ℕ), (∀ c ∈ l, g c ≠ j) →
      (l.foldl (fun px c => px.set (g c) (f c)) px)[j]? = px[j]? := by
  intro l
  induction l with
  | nil => intro px _; rfl
  | cons c cs ih =>
    intro px hne
    rw [List.foldl_cons, ih _ (fun d hd => hne d (List.mem_cons_of_mem _ hd)),
      List.getElem?_set]
    rw [if_neg (hne c (List.mem_cons_self _ _))]

/-- After the column loop over `range n` writing at `base + c`, the cell
`base + col` holds the value written for `col`, for every `col < n`. -/
theorem foldl_set_get (base : ℕ) (f : ℕ → ℕ) :
    ∀ (n : ℕ) (px : List ℕ) (col : ℕ), col < n → base + col < px.length →
      ((List.range n).foldl (fun px c => px.set (base + c) (f c)) px)[base + col]? =
        some (f col) := by
  intro n
  induction n with
  | zero => intro px col hc; omega
  | succ n ih =>
    intro px col hc hlt
    rw [List.range_succ, List.foldl_append, List.foldl_cons, List.foldl_nil]
    rcases Nat.lt_succ_iff_lt_or_eq.mp hc with hlt' | rfl
    · rw [List.getElem?_set, if_neg (by omega)]
      exact ih px col hlt' hlt
    · rw [List.getElem?_set, if_pos rfl,
        if_pos (by rw [foldl_set_length]; exact hlt)]

/-- The column loop of one row leaves every index outside
`[row*w, row*w + w)` unchanged. -/
theorem renderRow_untouched (w h : ℕ) (ul lr : Complex) (row : ℕ)
    (px : List ℕ) (j : ℕ) (hj : j < row * w ∨ row * w + w ≤ j) :
    (renderRow (w, h) ul lr row px)[j]? = px[j]? := by
  apply foldl_set_untouched
  intro c hc
  rw [List.mem_range] at hc
  show row * w + c ≠ j
  omega

theorem renderRow_length (w h : ℕ) (ul lr : Complex) (row : ℕ) (px : List ℕ) :
    (renderRow (w, h) ul lr row px).length = px.length :=
  foldl_set_length _ _ _ px

/-- After the column loop of `row`, cell `row*w + col` holds the byte of
pixel `(col, row)`. -/
theorem renderRow_get (w h : ℕ) (ul lr : Complex) (row : ℕ) (px : List ℕ)
    (col : ℕ) (hc : col < w) (hlt : row * w + col < px.length) :
    (renderRow (w, h) ul lr row px)[row * w + col]? =
      some (pixelByte (pixel_to_point (w, h) (col, row) ul lr)) :=
  foldl_set_get (row * w) _ w px col hc hlt

theorem rowsFold_length (w h : ℕ) (ul lr : Complex) :
    ∀ (n : ℕ) (px : List ℕ),
      ((List.range n).foldl
        (fun px row => renderRow (w, h) ul lr row px) px).length = px.length := by
  intro n
  induction n with
  | zero => intro px; rfl
  | succ n ih =>
    intro px
    rw [List.range_succ, List.foldl_append, List.foldl_cons, List.foldl_nil,
      renderRow_length, ih]

/-- After the row loop over `range n`, every cell of a processed row
holds its pixel byte. -/
theorem rowsFold_get (w h : ℕ) (ul lr : Complex) :
    ∀ (n : ℕ) (px : List ℕ), px.length = w * h → n ≤ h →
      ∀ row col, row < n → col < w →
        ((List.range n).foldl
          (fun px row => renderRow (w, h) ul lr row px) px)[row * w + col]? =
          some (pixelByte (pixel_to_point (w, h) (col, row) ul lr)) := by
  intro n
  induction n with
  | zero => intro px _ _ row col hr; omega
  | succ n ih =>
    intro px hlen hn row col hr hc
    rw [List.range_succ, List.foldl_append, List.foldl_cons, List.foldl_nil]
    have hwh : (row + 1) * w ≤ h * w :=
      Nat.mul_le_mul_right w (by omega)
    have hidx : row * w + col < w * h := by
      have : row * w + col < (row + 1) * w := by
        rw [Nat.add_mul, Nat.one_mul]; omega
      rw [Nat.mul_comm w h]; omega
    rcases Nat.lt_succ_iff_lt_or_eq.mp hr with hlt' | rfl
    · rw [renderRow_untouched w h ul lr n _ _ (Or.inl (by
        have : (row + 1) * w ≤ n * w := Nat.mul_le_mul_right w (by omega)
        have h2 : row * w + col < (row + 1) * w := by
          rw [Nat.add_mul, Nat.one_mul]; omega
        omega))]
      exact ih px hlen (by omega) row col hlt' hc
    · exact renderRow_get w h ul lr row _ col hc
        (by rw [rowsFold_length, hlen]; exact hidx)

/-- Length of an abstract block of `n` rows of `w` bytes. -/
theorem block_length (w : ℕ) (f : ℕ → ℕ → ℕ) :
    ∀ (n : ℕ),
      ((List.range n).flatMap fun r => (List.range w).map (f r)).length = n * w := by
  intro n
  induction n with
  | zero => simp
  | succ n ih =>
    rw [List.range_succ, List.flatMap_append, List.length_append, ih]
    simp [Nat.succ_mul]

/-- Cell `row*w + col` of an abstract block of rows. -/
theorem block_get (w : ℕ) (f : ℕ → ℕ → ℕ) :
    ∀ (n row col : ℕ), row < n → col < w →
      ((List.range n).flatMap fun r => (List.range w).map (f r))[row * w + col]? =
        some (f row col) := by
  intro n
  induction n with
  | zero => intro row col hr; omega
  | succ n ih =>
    intro row col hr hc
    rw [List.range_succ, List.flatMap_append, List.getElem?_append]
    rcases Nat.lt_succ_iff_lt_or_eq.mp hr with hlt' | rfl
    · rw [if_pos (by
        rw [block_length]
        have : (row + 1) * w ≤ n * w := Nat.mul_le_mul_right w (by omega)
        have h2 : row * w + col < (row + 1) * w := by
          rw [Nat.add_mul, Nat.one_mul]; omega
        omega)]
      exact ih row col hlt' hc
    · rw [if_neg (by rw [block_length]; omega)]
      rw [block_length]
      simp only [List.flatMap_cons, List.flatMap_nil, List.append_nil]
      have : row * w + col - row * w = col := by omega
      rw [this, List.getElem?_map, List.getElem?_range hc]
      rfl

/-- `render` succeeds on a well-sized buffer and computes exactly the
row-major image `renderPure`, independently of the buffer's contents. -/
theorem render_eq_renderPure (w h : ℕ) (ul lr : Complex) (px : List ℕ)
    (hlen : px.length = w * h) :
    render px (w, h) ul lr = some (renderPure (w, h) ul lr) := by
  unfold render
  rw [if_pos hlen]
  congr 1
  by_cases hw : w = 0
  · subst hw
    have h1 : ((List.range h).foldl
        (fun px row => renderRow (0, h) ul lr row px) px).length = 0 := by
      rw [rowsFold_length]; omega
    have h2 : (renderPure (0, h) ul lr).length = 0 := by
      show ((List.range h).flatMap fun row =>
        (List.range 0).map fun col =>
          pixelByte (pixel_to_point (0, h) (col, row) ul lr)).length = 0
      rw [block_length]; omega
    rw [List.eq_nil_of_length_eq_zero h1, List.eq_nil_of_length_eq_zero h2]
  · apply List.ext_getElem?
    intro j
    by_cases hj : j < w * h
    · have hjw : j = (j / w) * w + j % w := by
        rw [Nat.div_add_mod']
      have hrow : j / w < h := by
        rw [Nat.div_lt_iff_lt_mul (by omega)]
        rw [Nat.mul_comm w h] at hj; omega
      have hcol : j % w < w := Nat.mod_lt _ (by omega)
      rw [hjw, rowsFold_get w h ul lr h px hlen (le_refl h) _ _ hrow hcol]
      exact (block_get w
        (fun r col => pixelByte (pixel_to_point (w, h) (col, r) ul lr)) h
        (j / w) (j % w) hrow hcol).symm
    · have h1 : ((List.range h).foldl
          (fun px row => renderRow (w, h) ul lr row px) px).length ≤ j := by
        rw [rowsFold_length, hlen]; omega
      have h2 : (renderPure (w, h) ul lr).length ≤ j := by
        show ((List.range h).flatMap fun row =>
          (List.range w).map fun col =>
            pixelByte (pixel_to_point (w, h) (col, row) ul lr)).length ≤ j
        rw [block_length, Nat.mul_comm]; omega
      rw [List.getElem?_eq_none h1, List.getElem?_eq_none h2]

/-- C2: on a well-sized buffer, `render` fills every cell `row*w + col`
with `255 − count` when the mapped point escapes at iteration `count`,
and `0` when it is classified a set member; the output has exactly
`w*h` cells, so no other value appears anywhere. -/
theorem render_fills_every_pixel (w h : ℕ) (ul lr : Complex) (px : List ℕ)
    (hlen : px.length = w * h) :
    ∃ out, render px (w, h) ul lr = some out ∧ out.length = w * h ∧
      ∀ row col, row < h → col < w →
        out[row * w + col]? =
          some (match escape_time (pixel_to_point (w, h) (col, row) ul lr) 255 with
            | none => 0
            | some count => 255 - count) := by
  refine ⟨renderPure (w, h) ul lr, render_eq_renderPure w h ul lr px hlen, ?_, ?_⟩
  · show ((List.range h).flatMap fun row =>
      (List.range w).map fun col =>
        pixelByte (pixel_to_point (w, h) (col, row) ul lr)).length = w * h
    rw [block_length]
    exact Nat.mul_comm h w
  · intro row col hr hc
    exact block_get w
      (fun r c => pixelByte (pixel_to_point (w, h) (c, r) ul lr)) h row col hr hc

/-- Witness for C2 on a 1×1 image. -/
theorem render_fills_every_pixel_witness :
    ∃ out, render [5] (1, 1) ⟨0, 0⟩ ⟨0, 0⟩ = some out ∧ out.length = 1 * 1 ∧
      ∀ row col, row < 1 → col < 1 →
        out[row * 1 + col]? =
          some (match escape_time (pixel_to_point (1, 1) (col, row) ⟨0, 0⟩ ⟨0, 0⟩) 255 with
            | none => 0
            | some count => 255 - count) :=
  render_fills_every_pixel 1 1 ⟨0, 0⟩ ⟨0, 0⟩ [5] (by decide)

/-! ## The band decomposition -/

theorem chunksList_nil (k : ℕ) : chunksList k [] = [] := by
  rw [chunksList]
  simp

theorem chunksList_zero (l : List ℕ) : chunksList 0 l = [] := by
  rw [chunksList]
  simp

theorem chunksList_cons (k : ℕ) (l : List ℕ) (hl : l ≠ []) (hk : k ≠ 0) :
    chunksList k l = l.take k :: chunksList k (l.drop k) := by
  rw [chunksList]
  exact dif_neg (fun hor => hor.elim hl hk)

/-- Every chunk of a buffer whose length `w` divides, split at a
multiple of `w`, again has length a multiple of `w`. -/
theorem chunksList_length_dvd (w k : ℕ) (hk : w ∣ k) :
    ∀ (m : ℕ) (l : List ℕ), l.length ≤ m → w ∣ l.length →
      ∀ c ∈ chunksList k l, w ∣ c.length := by
  intro m
  induction m with
  | zero =>
    intro l hm _ c hc
    have hl : l = [] := List.eq_nil_of_length_eq_zero (by omega)
    rw [hl, chunksList_nil] at hc
    cases hc
  | succ m ih =>
    intro l hm hdvd c hc
    by_cases hl : l = []
    · rw [hl, chunksList_nil] at hc; cases hc
    · by_cases hk0 : k = 0
      · rw [hk0, chunksList_zero] at hc; cases hc
      · rw [chunksList_cons k l hl hk0] at hc
        rcases List.mem_cons.mp hc with rfl | hc'
        · rw [List.length_take]
          rcases Nat.le_total k l.length with h1 | h1
          · rw [Nat.min_eq_left h1]; exact hk
          · rw [Nat.min_eq_right h1]; exact hdvd
        · refine ih (l.drop k) ?_ ?_ c hc'
          · rw [List.length_drop]
            have : l.length ≠ 0 :=
              fun hz => hl (List.eq_nil_of_length_eq_zero hz)
            omega
          · rw [List.length_drop]
            exact Nat.dvd_sub' hdvd hk

/-- C7: `render` aborts (models the `assert!`) exactly when the buffer
length differs from `w*h`, before writing anything; and every band the
decomposition of `main` hands to `render` satisfies the length
precondition, so the assertion never fires there (for any corners). -/
theorem render_assert_spec :
    (∀ (px : List ℕ) (b : ℕ × ℕ) (ul lr : Complex),
        render px b ul lr = none ↔ px.length ≠ b.1 * b.2) ∧
    (∀ (w h n : ℕ) (px : List ℕ) (bul blr : Complex), 0 < w →
        px.length = w * h →
        ∀ band ∈ chunksList (rows_per_band h n * w) px,
          render band (w, band.length / w) bul blr ≠ none) := by
  constructor
  · intro px b ul lr
    unfold render
    by_cases hb : px.length = b.1 * b.2
    · rw [if_pos hb]; simp [hb]
    · rw [if_neg hb]; simp [hb]
  · intro w h n px bul blr hw hlen band hband hcontra
    have hdvd : w ∣ band.length := by
      refine chunksList_length_dvd w _ ⟨rows_per_band h n, Nat.mul_comm _ _⟩
        px.length px (le_refl _) ⟨h, hlen⟩ band hband
    obtain ⟨m, hm⟩ := hdvd
    have hdiv : band.length / w = m := by
      rw [hm]; exact Nat.mul_div_cancel_left m hw
    unfold render at hcontra
    rw [if_pos (show band.length = w * (band.length / w) by
      rw [hdiv, hm])] at hcontra
    cases hcontra

/-- Witness for C7: the single band of a 1×1 image renders without
tripping the assertion, and an undersized buffer aborts. -/
theorem render_assert_spec_witness :
    render [0] (1, 1) ⟨0, 0⟩ ⟨0, 0⟩ ≠ none ∧
    (render [] (1, 1) ⟨0, 0⟩ ⟨0, 0⟩ = none ↔ ([] : List ℕ).length ≠ 1 * 1) := by
  constructor
  · have hmem : [0] ∈ chunksList (rows_per_band 1 1 * 1) [0] := by
      rw [chunksList_cons (rows_per_band 1 1 * 1) [0] (by decide) (by decide)]
      rw [show ([0] : List ℕ).drop (rows_per_band 1 1 * 1) = [] from rfl]
      rw [chunksList_nil]
      rw [show ([0] : List ℕ).take (rows_per_band 1 1 * 1) = [0] from rfl]
      exact List.mem_singleton.mpr rfl
    have := render_assert_spec.2 1 1 1 [0] ⟨0, 0⟩ ⟨0, 0⟩ (by decide)
      (by decide) [0] hmem
    exact this
  · exact render_assert_spec.1 [] (1, 1) ⟨0, 0⟩ ⟨0, 0⟩

/-- The ranges of the chunks of a buffer (starting at offset `off`)
are ordered and disjoint, stay within the buffer, and cover it. -/
theorem sliceRanges_spec (k : ℕ) (hk : k ≠ 0) :
    ∀ (m : ℕ) (l : List ℕ) (off : ℕ), l.length ≤ m →
      List.Pairwise (fun p q => p.1 + p.2 ≤ q.1)
          (sliceRanges off (chunksList k l)) ∧
      (∀ p ∈ sliceRanges off (chunksList k l),
          off ≤ p.1 ∧ p.1 + p.2 ≤ off + l.length) ∧
      (∀ j, off ≤ j → j < off + l.length →
          ∃ p ∈ sliceRanges off (chunksList k l), p.1 ≤ j ∧ j < p.1 + p.2) := by
  intro m
  induction m with
  | zero =>
    intro l off hm
    have hl : l = [] := List.eq_nil_of_length_eq_zero (by omega)
    subst hl
    rw [chunksList_nil]
    refine ⟨List.Pairwise.nil, ?_, ?_⟩
    · intro p hp; cases hp
    · intro j h1 h2; simp at h2; omega
  | succ m ih =>
    intro l off hm
    by_cases hl : l = []
    · subst hl
      rw [chunksList_nil]
      refine ⟨List.Pairwise.nil, ?_, ?_⟩
      · intro p hp; cases hp
      · intro j h1 h2; simp at h2; omega
    · rw [chunksList_cons k l hl hk]
      have hlz : l.length ≠ 0 := fun hz => hl (List.eq_nil_of_length_eq_zero hz)
      have htl : (l.take k).length = min k l.length := List.length_take k l
      have hdl : (l.drop k).length = l.length - k := List.length_drop k l
      have hsum : (l.take k).length + (l.drop k).length = l.length := by
        rw [htl, hdl]; omega
      obtain ⟨ih1, ih2, ih3⟩ :=
        ih (l.drop k) (off + (l.take k).length) (by rw [hdl]; omega)
      refine ⟨?_, ?_, ?_⟩
      · show List.Pairwise _ ((off, (l.take k).length) :: _)
        refine List.Pairwise.cons ?_ ih1
        intro q hq
        exact (ih2 q hq).1
      · intro p hp
        rcases List.mem_cons.mp hp with rfl | hp'
        · constructor
          · exact le_refl _
          · show off + (l.take k).length ≤ off + l.length
            omega
        · have := ih2 p hp'
          omega
      · intro j h1 h2
        by_cases hj : j < off + (l.take k).length
        · exact ⟨(off, (l.take k).length), List.mem_cons_self _ _, h1, hj⟩
        · obtain ⟨p, hp, hp1, hp2⟩ := ih3 j (by omega) (by omega)
          exact ⟨p, List.mem_cons_of_mem _ hp, hp1, hp2⟩

/-- C4: for any image bounds with `W,H > 0` and any worker count
`N ≥ 1`, the byte ranges of the bands (successive `chunks_mut` slices
of the `W*H` buffer, each a contiguous interval `[offset, offset+len)`)
are ordered and pairwise disjoint, stay within the buffer, and cover
every index in `[0, W*H)` — so each pixel lies in exactly one band,
whether or not `N` divides `H`. -/
theorem band_ranges_partition (w h n : ℕ) (px : List ℕ)
    (hw : 0 < w) (hh : 0 < h) (hn : 1 ≤ n) (hlen : px.length = w * h) :
    List.Pairwise (fun p q => p.1 + p.2 ≤ q.1) (bandRanges w h n px) ∧
    (∀ p ∈ bandRanges w h n px, p.1 + p.2 ≤ w * h) ∧
    (∀ j, j < w * h → ∃ p ∈ bandRanges w h n px, p.1 ≤ j ∧ j < p.1 + p.2) := by
  unfold bandRanges
  have hk : rows_per_band h n * w ≠ 0 :=
    Nat.mul_ne_zero (Nat.succ_ne_zero (h / n)) (by omega)
  obtain ⟨h1, h2, h3⟩ := sliceRanges_spec _ hk px.length px 0 (le_refl _)
  refine ⟨h1, ?_, ?_⟩
  · intro p hp
    have := (h2 p hp).2
    omega
  · intro j hj
    exact h3 j (by omega) (by omega)

/-- Witness for C4 on a 2×3 image with 2 workers. -/
theorem band_ranges_partition_witness :
    List.Pairwise (fun p q => p.1 + p.2 ≤ q.1)
        (bandRanges 2 3 2 (List.replicate 6 0)) ∧
    (∀ p ∈ bandRanges 2 3 2 (List.replicate 6 0), p.1 + p.2 ≤ 2 * 3) ∧
    (∀ j, j < 2 * 3 → ∃ p ∈ bandRanges 2 3 2 (List.replicate 6 0),
        p.1 ≤ j ∧ j < p.1 + p.2) :=
  band_ranges_partition 2 3 2 (List.replicate 6 0) (by decide) (by decide)
    (by decide) (by decide)

/-- Band corner arithmetic: mapping pixel `(col, r)` inside a band of
`bh` rows starting at row `top` — with the band's corners derived via
`pixel_to_point` exactly as `main` derives them — gives the same point
as mapping `(col, top + r)` in the full image. -/
theorem band_pixel_to_point (w h bh top col r : ℕ) (ul lr : Complex)
    (hw : 0 < w) (hh : 0 < h) (hbh : 0 < bh) :
    pixel_to_point (w, bh) (col, r)
      (pixel_to_point (w, h) (0, top) ul lr)
      (pixel_to_point (w, h) (w, top + bh) ul lr) =
    pixel_to_point (w, h) (col, top + r) ul lr := by
  have hw0 : (w : ℚ) ≠ 0 := Nat.cast_ne_zero.mpr (by omega)
  have hh0 : (h : ℚ) ≠ 0 := Nat.cast_ne_zero.mpr (by omega)
  have hbh0 : (bh : ℚ) ≠ 0 := Nat.cast_ne_zero.mpr (by omega)
  simp only [pixel_to_point]
  rw [Complex.mk.injEq]
  constructor
  · push_cast
    field_simp
    try ring
  · push_cast
    field_simp
    try ring

/-- A band rendered with derived corners computes exactly rows
`top, …, top + bh − 1` of the full image. -/
theorem renderPure_band (w h bh top : ℕ) (ul lr : Complex)
    (hw : 0 < w) (hh : 0 < h) (hbh : 0 < bh) :
    renderPure (w, bh)
      (pixel_to_point (w, h) (0, top) ul lr)
      (pixel_to_point (w, h) (w, top + bh) ul lr) =
    (List.range bh).flatMap fun r =>
      (List.range w).map fun col =>
        pixelByte (pixel_to_point (w, h) (col, top + r) ul lr) := by
  unfold renderPure
  congr 1
  funext r
  congr 1
  funext col
  rw [band_pixel_to_point w h bh top col r ul lr hw hh hbh]

/-- The worker loop over the chunks starting at band index `i` (with
`hrem` rows of buffer remaining) renders every band successfully, and
the flattened result is exactly rows `rpb·i, …, rpb·i + hrem − 1` of
the full image. -/
theorem bands_mapM_spec (w h rpb : ℕ) (ul lr : Complex)
    (hw : 0 < w) (hh : 0 < h) (hrpb : 0 < rpb) :
    ∀ (m hrem i : ℕ) (px : List ℕ), hrem ≤ m → px.length = hrem * w →
      ∃ out,
        List.mapM (fun ib : ℕ × List ℕ =>
          render ib.2 (w, ib.2.length / w)
            (pixel_to_point (w, h) (0, rpb * ib.1) ul lr)
            (pixel_to_point (w, h) (w, rpb * ib.1 + ib.2.length / w) ul lr))
          (List.enumFrom i (chunksList (rpb * w) px)) = some out ∧
        out.flatten = (List.range hrem).flatMap fun r =>
          (List.range w).map fun col =>
            pixelByte (pixel_to_point (w, h) (col, rpb * i + r) ul lr) := by
  intro m
  induction m with
  | zero =>
    intro hrem i px hm hlen
    have h0 : hrem = 0 := by omega
    subst h0
    have hpx : px = [] := List.eq_nil_of_length_eq_zero (by simpa using hlen)
    subst hpx
    rw [chunksList_nil]
    exact ⟨[], rfl, by simp⟩
  | succ m ih =>
    intro hrem i px hm hlen
    by_cases h0 : hrem = 0
    · subst h0
      have hpx : px = [] := List.eq_nil_of_length_eq_zero (by simpa using hlen)
      subst hpx
      rw [chunksList_nil]
      exact ⟨[], rfl, by simp⟩
    · have hpxne : px ≠ [] := by
        intro hc
        rw [hc] at hlen
        simp only [List.length_nil] at hlen
        rcases Nat.mul_eq_zero.mp hlen.symm with h1 | h1 <;> omega
      have hkne : rpb * w ≠ 0 := Nat.mul_ne_zero (by omega) (by omega)
      rw [chunksList_cons _ px hpxne hkne, List.enumFrom_cons]
      set bh := min rpb hrem with hbh
      have hbhpos : 0 < bh := by omega
      have htake : (px.take (rpb * w)).length = bh * w := by
        rw [List.length_take, hlen, hbh]
        exact Nat.mul_min_mul_right rpb hrem w
      have hdivtake : (px.take (rpb * w)).length / w = bh := by
        rw [htake]
        exact Nat.mul_div_cancel bh hw
      have hrender :
          render (px.take (rpb * w)) (w, (px.take (rpb * w)).length / w)
            (pixel_to_point (w, h) (0, rpb * i) ul lr)
            (pixel_to_point (w, h) (w, rpb * i + (px.take (rpb * w)).length / w)
              ul lr) =
          some (renderPure (w, bh)
            (pixel_to_point (w, h) (0, rpb * i) ul lr)
            (pixel_to_point (w, h) (w, rpb * i + bh) ul lr)) := by
        rw [hdivtake]
        exact render_eq_renderPure w bh _ _ _ (by rw [htake, Nat.mul_comm])
      have hdrop : (px.drop (rpb * w)).length = (hrem - rpb) * w := by
        rw [List.length_drop, hlen, Nat.sub_mul]
      obtain ⟨out', hmap', hflat'⟩ :=
        ih (hrem - rpb) (i + 1) (px.drop (rpb * w)) (by omega) hdrop
      refine ⟨renderPure (w, bh)
        (pixel_to_point (w, h) (0, rpb * i) ul lr)
        (pixel_to_point (w, h) (w, rpb * i + bh) ul lr) :: out', ?_, ?_⟩
      · rw [List.mapM_cons]
        simp only [hrender, hmap', Option.bind_eq_bind, Option.some_bind]
        rfl
      · rw [List.flatten_cons, hflat',
          renderPure_band w h bh (rpb * i) ul lr hw hh hbhpos]
        by_cases hcase : hrem ≤ rpb
        · have hb : bh = hrem := by omega
          have hz : hrem - rpb = 0 := by omega
          rw [hb, hz]
          simp
        · have hb : bh = rpb := by omega
          have hsum : hrem = bh + (hrem - rpb) := by omega
          conv_rhs =>
            rw [hsum, List.range_add, List.flatMap_append, List.flatMap_map]
          congr 1
          refine congrArg (List.flatMap (List.range (hrem - rpb)))
            (funext fun r => ?_)
          have harg : rpb * (i + 1) + r = rpb * i + (bh + r) := by
            rw [hb, Nat.mul_succ]
            omega
          rw [harg]

/-- The full band phase of `main`, at any worker count `n ≥ 1`, produces
exactly the sequential full-image render. -/
theorem renderBands_eq_render_aux (w h n : ℕ) (ul lr : Complex) (px : List ℕ)
    (hw : 0 < w) (hh : 0 < h) (hn : 1 ≤ n) (hlen : px.length = w * h) :
    renderBands (w, h) n ul lr px = render px (w, h) ul lr := by
  obtain ⟨out, hmap, hflat⟩ :=
    bands_mapM_spec w h (rows_per_band h n) ul lr hw hh (Nat.succ_pos _)
      h h 0 px (le_refl h) (by rw [hlen, Nat.mul_comm])
  rw [render_eq_renderPure w h ul lr px hlen]
  show (List.mapM (fun ib : ℕ × List ℕ =>
      render ib.2 (w, ib.2.length / w)
        (pixel_to_point (w, h) (0, rows_per_band h n * ib.1) ul lr)
        (pixel_to_point (w, h)
          (w, rows_per_band h n * ib.1 + ib.2.length / w) ul lr))
      (List.enumFrom 0 (chunksList (rows_per_band h n * w) px))).map
        List.flatten = some (renderPure (w, h) ul lr)
  rw [hmap]
  simp only [Option.map_some']
  simp only [Nat.mul_zero, Nat.zero_add] at hflat
  rw [hflat]
  rfl

/-- C1: for any bounds `W,H > 0`, any viewport and any worker count
`1 ≤ N ≤ 64`, the parallel band decomposition (row-bands whose corners
are derived via `pixel_to_point`, each rendered by `render`) produces a
pixel buffer identical to one sequential full-image `render` call. -/
theorem banded_render_equals_sequential (w h n : ℕ) (ul lr : Complex)
    (px : List ℕ) (hw : 0 < w) (hh : 0 < h) (hn1 : 1 ≤ n) (hn64 : n ≤ 64)
    (hlen : px.length = w * h) :
    renderBands (w, h) n ul lr px = render px (w, h) ul lr :=
  renderBands_eq_render_aux w h n ul lr px hw hh hn1 hlen

/-- Witness for C1: a 2×2 image split across 3 workers. -/
theorem banded_render_equals_sequential_witness :
    renderBands (2, 2) 3 ⟨-1, 1⟩ ⟨1, -1⟩ (List.replicate 4 0) =
      render (List.replicate 4 0) (2, 2) ⟨-1, 1⟩ ⟨1, -1⟩ :=
  banded_render_equals_sequential 2 2 3 ⟨-1, 1⟩ ⟨1, -1⟩ (List.replicate 4 0)
    (by decide) (by decide) (by decide) (by decide) (by decide)

/-- C10: after the band phase, `main` calls `render` once more over the
whole buffer, so the buffer handed to `write_image` equals a single
sequential full-image render; and the final `render` overwrites every
byte — its output does not depend on the buffer contents at all (any
two well-sized buffers render identically), so the band phase has no
effect on the final output. -/
theorem main_rerenders_sequentially (w h : ℕ) (ul lr : Complex)
    (hw : 0 < w) (hh : 0 < h) :
    mainPixels (w, h) ul lr = render (List.replicate (w * h) 0) (w, h) ul lr ∧
    ∀ px1 px2 : List ℕ, px1.length = w * h → px2.length = w * h →
      render px1 (w, h) ul lr = render px2 (w, h) ul lr := by
  have hrepl : (List.replicate (w * h) 0).length = w * h :=
    List.length_replicate _ _
  have hlenpure : (renderPure (w, h) ul lr).length = w * h := by
    show ((List.range h).flatMap fun row =>
      (List.range w).map fun col =>
        pixelByte (pixel_to_point (w, h) (col, row) ul lr)).length = w * h
    rw [block_length]
    exact Nat.mul_comm h w
  constructor
  · show (renderBands (w, h) threads ul lr (List.replicate (w * h) 0)).bind
      (fun banded => render banded (w, h) ul lr) =
      render (List.replicate (w * h) 0) (w, h) ul lr
    rw [renderBands_eq_render_aux w h threads ul lr _ hw hh (by decide) hrepl]
    rw [render_eq_renderPure w h ul lr _ hrepl]
    rw [Option.some_bind]
    rw [render_eq_renderPure w h ul lr _ hlenpure]
  · intro px1 px2 h1 h2
    rw [render_eq_renderPure w h ul lr px1 h1,
      render_eq_renderPure w h ul lr px2 h2]

/-- Witness for C10 on a 1×1 image. -/
theorem main_rerenders_sequentially_witness :
    mainPixels (1, 1) ⟨0, 0⟩ ⟨0, 0⟩ =
      render (List.replicate (1 * 1) 0) (1, 1) ⟨0, 0⟩ ⟨0, 0⟩ ∧
    ∀ px1 px2 : List ℕ, px1.length = 1 * 1 → px2.length = 1 * 1 →
      render px1 (1, 1) ⟨0, 0⟩ ⟨0, 0⟩ = render px2 (1, 1) ⟨0, 0⟩ ⟨0, 0⟩ :=
  main_rerenders_sequentially 1 1 ⟨0, 0⟩ ⟨0, 0⟩ (by decide) (by decide)

end Mandelbrot
